import Mathlib

/-!
Verification of `generate_arxiv_snapshot.py` (arXiv author paper fetcher).

The script fetches Atom feeds per configured author, parses entries into
paper records, merges them with first-occurrence-wins deduplication on the
arXiv id, sorts by the raw `updated` string descending, and renders a
static HTML page.  This file embeds the pure computational content of the
script (URL construction, feed-entry processing, date formatting,
aggregation, HTML rendering) and proves the specified properties.

String primitives are modelled on `List Char`, mirroring Python string
semantics: `in` (substring test), `str.split` (left-to-right
non-overlapping), `str.replace` (replace all occurrences, left-to-right
non-overlapping), `<` on strings (lexicographic by code point), and
`html.escape` (character-wise entity substitution).
-/

/-- Python `s.startswith(pat)` on character lists. -/
def startsWithL : List Char → List Char → Bool
  | [], _ => true
  | _ :: _, [] => false
  | p :: ps, c :: cs => p == c && startsWithL ps cs

/-- Python `pat in s` on character lists: substring occurrence test. -/
def containsL (pat : List Char) : List Char → Bool
  | [] => startsWithL pat []
  | c :: cs => startsWithL pat (c :: cs) || containsL pat cs

/-- Python `pat in s` on strings. -/
def containsS (pat s : String) : Bool := containsL pat.data s.data

/-- Recursion core of Python `s.split(pat)`: scans left to right, each
occurrence of `pat` is consumed and ends the current chunk.  `fuel` bounds
the recursion (callers pass `s.length`, which suffices for nonempty
patterns); structural recursion on `fuel` keeps the definition
kernel-reducible. -/
def splitGo (pat : List Char) : Nat → List Char → List Char → List (List Char)
  | _, acc, [] => [acc.reverse]
  | 0, acc, s => [acc.reverse ++ s]
  | fuel + 1, acc, c :: cs =>
    if startsWithL pat (c :: cs) then
      acc.reverse :: splitGo pat fuel [] (List.drop pat.length (c :: cs))
    else
      splitGo pat fuel (c :: acc) cs

/-- Python `s.split(pat)` for a nonempty separator `pat`. -/
def splitAll (pat s : List Char) : List (List Char) := splitGo pat s.length [] s

/-- Recursion core of Python `s.replace(pat, repl)`; same fuel discipline
as `splitGo`. -/
def replGo (pat repl : List Char) : Nat → List Char → List Char
  | _, [] => []
  | 0, s => s
  | fuel + 1, c :: cs =>
    if startsWithL pat (c :: cs) then
      repl ++ replGo pat repl fuel (List.drop pat.length (c :: cs))
    else
      c :: replGo pat repl fuel cs

/-- Python `s.replace(pat, repl)` for a nonempty `pat`, on lists. -/
def replaceAllL (pat repl s : List Char) : List Char := replGo pat repl s.length s

/-- Python `s.replace(pat, repl)` on strings. -/
def replaceAllS (pat repl s : String) : String := ⟨replaceAllL pat.data repl.data s.data⟩

/-- Python `a <= b` on strings: lexicographic by code point. -/
def lexLe : List Char → List Char → Bool
  | [], _ => true
  | _ :: _, [] => false
  | a :: as, b :: bs => Nat.blt a.toNat b.toNat || (a == b && lexLe as bs)

theorem startsWithL_iff (pat s : List Char) :
    startsWithL pat s = true ↔ ∃ r, s = pat ++ r := by
  induction pat generalizing s with
  | nil => simp [startsWithL]
  | cons p ps ih =>
    cases s with
    | nil => simp [startsWithL]
    | cons c cs =>
      simp only [startsWithL, Bool.and_eq_true, beq_iff_eq, ih, List.cons_append,
        List.cons.injEq]
      constructor
      · rintro ⟨rfl, r, rfl⟩; exact ⟨r, rfl, rfl⟩
      · rintro ⟨r, rfl, rfl⟩; exact ⟨rfl, r, rfl⟩

theorem containsL_iff (pat s : List Char) :
    containsL pat s = true ↔ ∃ l r, s = l ++ pat ++ r := by
  induction s with
  | nil =>
    simp only [containsL, startsWithL_iff]
    constructor
    · rintro ⟨r, h⟩; exact ⟨[], r, by simpa using h⟩
    · rintro ⟨l, r, h⟩
      rcases List.append_eq_nil.mp (List.append_eq_nil.mp h.symm).1 with ⟨h1, h2⟩
      exact ⟨r, by simp [h2, (List.append_eq_nil.mp h.symm).2]⟩
  | cons c cs ih =>
    simp only [containsL, Bool.or_eq_true, startsWithL_iff, ih]
    constructor
    · rintro (⟨r, h⟩ | ⟨l, r, h⟩)
      · exact ⟨[], r, by simpa using h⟩
      · exact ⟨c :: l, r, by simp [h]⟩
    · rintro ⟨l, r, h⟩
      cases l with
      | nil => exact Or.inl ⟨r, by simpa using h⟩
      | cons x xs =>
        simp only [List.cons_append, List.cons.injEq] at h
        exact Or.inr ⟨xs, r, h.2⟩

theorem containsL_of_middle (pat a b : List Char) :
    containsL pat (a ++ pat ++ b) = true :=
  (containsL_iff pat _).mpr ⟨a, b, rfl⟩

theorem containsL_append_left (pat a b : List Char)
    (h : containsL pat a = true) : containsL pat (a ++ b) = true := by
  rcases (containsL_iff pat a).mp h with ⟨l, r, rfl⟩
  exact (containsL_iff pat _).mpr ⟨l, r ++ b, by simp⟩

theorem containsL_append_right (pat a b : List Char)
    (h : containsL pat b = true) : containsL pat (a ++ b) = true := by
  rcases (containsL_iff pat b).mp h with ⟨l, r, rfl⟩
  exact (containsL_iff pat _).mpr ⟨a ++ l, r, by simp⟩

theorem mem_of_containsL (pat s : List Char) (c : Char)
    (hc : c ∈ pat) (h : containsL pat s = true) : c ∈ s := by
  rcases (containsL_iff pat s).mp h with ⟨l, r, rfl⟩
  simp [hc]

-- sanity examples for the Python-semantics primitives (kept as `example`s)
example : containsS "/abs/" "http://arxiv.org/abs/1234" = true := by decide
example : splitAll "/abs/".data "http://x/abs/abs/".data = ["http://x".data, "abs/".data] := by decide
example : replaceAllL "Z".data "+00:00".data "12Z".data = "12+00:00".data := by decide
example : lexLe "".data "2024".data = true := by decide

/-!
## Data model

`Author` mirrors the configuration dicts (`name`, `id`, `type`); `Paper`
mirrors the dicts built by `parse_atom_feed`.  `Entry` models one Atom
`<entry>` element as seen by the parser: for `title`, `summary` and the
`id` element the outer `Option` is element presence and the inner
`Option` is the element's `.text` (Python `None` or a string); `published`
and `updated` record the element's text directly (an element with null
text is outside the scope of the claims); `authors` holds, per `<author>`
element, the text of its `<name>` child (`none` models a missing `<name>`
child, whose `.text` access raises); `categories` holds the `term`
attribute values.
-/

structure Author where
  name : String
  id : String
  type : String
deriving DecidableEq

structure Paper where
  title : String
  summary : String
  authors : List String
  published : String
  updated : String
  url : String
  arxiv_id : Option String
  categories : List String
deriving DecidableEq

structure Entry where
  title : Option (Option String)
  summary : Option (Option String)
  published : Option String
  updated : Option String
  idElem : Option (Option String)
  authors : List (Option String)
  categories : List String
deriving DecidableEq

/-- Python `str.strip()` with no argument: remove leading and trailing
whitespace (modelled on the ASCII whitespace characters). -/
def trimL (l : List Char) : List Char :=
  ((l.dropWhile Char.isWhitespace).reverse.dropWhile Char.isWhitespace).reverse

/-- Python `str.strip()` on strings. -/
def trimS (s : String) : String := ⟨trimL s.data⟩

/-- Maximum number of papers per author (source line 36). -/
def MAX_PAPERS_PER_AUTHOR : Nat := 20

/-- URL construction of `fetch_author_feed` (source lines 44-48); the
network I/O itself is not modelled.  Note that Python `str.replace`
replaces every occurrence, not just a prefix. -/
def fetch_feed_url (a : Author) : String :=
  if a.type == "orcid" then
    "https://arxiv.org/a/" ++
      replaceAllS "http://orcid.org/" "" (replaceAllS "https://orcid.org/" "" a.id) ++
      ".atom2"
  else
    "https://arxiv.org/a/" ++ a.id ++ ".atom2"

/-- `url.split('/abs/')[-1]` guarded by `'/abs/' in url` (source lines 93-94). -/
def extract_arxiv_id (url : String) : Option String :=
  if containsS "/abs/" url then some ⟨(splitAll "/abs/".data url.data).getLastD []⟩
  else none

/-- The author-name list comprehension (source lines 83-84): accessing
`.text` on a missing `<name>` child raises, abandoning the whole feed. -/
def extractNames : List (Option String) → Except Unit (List String)
  | [] => .ok []
  | none :: _ => .error ()
  | some s :: rest =>
    match extractNames rest with
    | .ok ns => .ok (s :: ns)
    | .error e => .error e

/-- The arXiv-id block (source lines 90-94): if the `id` element exists
but its text is `None`, the expression `'/abs/' in url` raises. -/
def entry_arxiv_id (e : Entry) : Except Unit (Option String) :=
  match e.idElem with
  | none => .ok none
  | some none => .error ()
  | some (some url) => .ok (extract_arxiv_id url)

/-- One iteration of the entry loop (source lines 77-106), in Python
evaluation order: author names first, then the arXiv id, then the
title/id presence check guarding construction of the paper dict
(`title.text.strip()` and `summary.text.strip()` raise on null text).
`.error ()` models an exception escaping to the `except` handler. -/
def processEntry (e : Entry) : Except Unit (Option Paper) :=
  match extractNames e.authors with
  | .error _ => .error ()
  | .ok names =>
    match entry_arxiv_id e with
    | .error _ => .error ()
    | .ok aid =>
      match e.title, e.idElem with
      | some tOpt, some uOpt =>
        match tOpt with
        | none => .error ()
        | some t =>
          match e.summary with
          | some none => .error ()
          | some (some sm) =>
            .ok (some { title := trimS t, summary := trimS sm, authors := names,
                        published := e.published.getD "", updated := e.updated.getD "",
                        url := uOpt.getD "", arxiv_id := aid,
                        categories := e.categories.take 3 })
          | none =>
            .ok (some { title := trimS t, summary := "", authors := names,
                        published := e.published.getD "", updated := e.updated.getD "",
                        url := uOpt.getD "", arxiv_id := aid,
                        categories := e.categories.take 3 })
      | _, _ => .ok none

/-- The entry loop over the capped prefix; an exception anywhere abandons
every entry of the feed. -/
def parseEntries : List Entry → Except Unit (List Paper)
  | [] => .ok []
  | e :: es =>
    match processEntry e with
    | .error _ => .error ()
    | .ok r =>
      match parseEntries es with
      | .error _ => .error ()
      | .ok rest => .ok (match r with | some p => p :: rest | none => rest)

/-- `parse_atom_feed` (source lines 63-113) on the entry list of a
well-formed feed; the XML deserialization itself is abstracted, and a
raised exception yields the empty list via the `except` handler. -/
def parse_atom_feed (entries : List Entry) : List Paper :=
  match parseEntries (entries.take MAX_PAPERS_PER_AUTHOR) with
  | .ok ps => ps
  | .error _ => []

/-- The entry's paper record on the non-raising path, as a total
function; used to state what the parser keeps. -/
def mkPaper (e : Entry) : Paper :=
  { title := trimS ((e.title.getD none).getD "")
  , summary := trimS ((e.summary.getD none).getD "")
  , authors := e.authors.map (fun a => a.getD "")
  , published := e.published.getD ""
  , updated := e.updated.getD ""
  , url := (e.idElem.getD none).getD ""
  , arxiv_id := match e.idElem with
      | some (some url) => extract_arxiv_id url
      | _ => none
  , categories := e.categories.take 3 }

/-- The skip condition (source line 96): an entry is kept iff the title
element and the id element both exist. -/
def keepEntry (e : Entry) : Bool := e.title.isSome && e.idElem.isSome

/-!
## Date formatting

`format_date` (source lines 116-122) replaces every `'Z'` by `'+00:00'`,
attempts `datetime.fromisoformat`, and formats via `strftime('%b %d, %Y')`;
the bare `except` turns any parse failure into returning the input
unchanged.  `fromisoformat` is modelled on the shape
`YYYY-MM-DD[<sep>HH[:MM[:SS]][±HH:MM]]` with range checks (year ≥ 1,
month 1-12, day 1-31, hours ≤ 23, minutes/seconds ≤ 59); fractional
seconds and full calendar-day validation are outside the subset, which
only widens the claim-irrelevant boundary between the two branches. -/

def digitVal (c : Char) : Nat := c.toNat - 48

def twoDigitsIn (a b : Char) (lo hi : Nat) : Bool :=
  a.isDigit && b.isDigit &&
    decide (lo ≤ 10 * digitVal a + digitVal b) && decide (10 * digitVal a + digitVal b ≤ hi)

def validOffsetL : List Char → Bool
  | [s, h1, h2, ':', m1, m2] =>
    (s == '+' || s == '-') && twoDigitsIn h1 h2 0 23 && twoDigitsIn m1 m2 0 59
  | _ => false

def validTimeL : List Char → Bool
  | [h1, h2] => twoDigitsIn h1 h2 0 23
  | h1 :: h2 :: ':' :: m1 :: m2 :: rest =>
    twoDigitsIn h1 h2 0 23 && twoDigitsIn m1 m2 0 59 &&
      (match rest with
       | [] => true
       | ':' :: s1 :: s2 :: rest2 =>
         twoDigitsIn s1 s2 0 59 && (rest2.isEmpty || validOffsetL rest2)
       | _ => validOffsetL rest)
  | h1 :: h2 :: rest => twoDigitsIn h1 h2 0 23 && validOffsetL rest
  | _ => false

def fromisoformat (l : List Char) : Option (Nat × Nat × Nat) :=
  match l with
  | y1 :: y2 :: y3 :: y4 :: '-' :: m1 :: m2 :: '-' :: d1 :: d2 :: rest =>
    let y := 1000 * digitVal y1 + 100 * digitVal y2 + 10 * digitVal y3 + digitVal y4
    if [y1, y2, y3, y4].all (·.isDigit) && decide (1 ≤ y) &&
        twoDigitsIn m1 m2 1 12 && twoDigitsIn d1 d2 1 31 then
      match rest with
      | [] => some (y, 10 * digitVal m1 + digitVal m2, 10 * digitVal d1 + digitVal d2)
      | _ :: t =>
        if validTimeL t then
          some (y, 10 * digitVal m1 + digitVal m2, 10 * digitVal d1 + digitVal d2)
        else none
    else none
  | _ => none

def monthAbbrev : Nat → String
  | 1 => "Jan" | 2 => "Feb" | 3 => "Mar" | 4 => "Apr" | 5 => "May" | 6 => "Jun"
  | 7 => "Jul" | 8 => "Aug" | 9 => "Sep" | 10 => "Oct" | 11 => "Nov" | 12 => "Dec"
  | _ => ""

/-- `%d` zero-pads to two digits. -/
def pad2 (n : Nat) : String := if n < 10 then "0" ++ toString n else toString n

/-- `dt.strftime('%b %d, %Y')`. -/
def strftimeBdY (y m d : Nat) : String :=
  monthAbbrev m ++ " " ++ pad2 d ++ ", " ++ toString y

/-- `format_date` (source lines 116-122): total; any parse failure
returns the input unchanged. -/
def format_date (s : String) : String :=
  match fromisoformat (replaceAllL "Z".data "+00:00".data s.data) with
  | some (y, m, d) => strftimeBdY y m d
  | none => s

/-!
## HTML escaping

`html.escape(s, quote=True)` performs five successive `str.replace`
calls (`&`, `<`, `>`, `"`, `'`); since no replacement string contains a
character replaced by a later call, the composite is the character-wise
substitution below. -/

def escapeChar (c : Char) : List Char :=
  if c = '&' then "&amp;".data
  else if c = '<' then "&lt;".data
  else if c = '>' then "&gt;".data
  else if c = '"' then "&quot;".data
  else if c = '\x27' then "&#x27;".data
  else [c]

def escapeL : List Char → List Char
  | [] => []
  | c :: cs => escapeChar c ++ escapeL cs

/-- `html.escape(s, quote=True)`. -/
def escapeS (s : String) : String := ⟨escapeL s.data⟩

/-!
## Aggregation (source lines 254-268)

The two nested loops with the `seen_arxiv_ids` set become a fold of
`dedupStep`; the `set` is modelled as the list of ids added so far (only
membership is consulted).  Python truthiness of `paper['arxiv_id']`
(which is `None` or a string) is `truthy`.  `list.sort(key=...,
reverse=True)` is a stable descending sort on the raw `updated` string;
any two stable sorts under the same total preorder agree, so it is
modelled by a stable insertion sort. -/

def truthy : Option String → Bool
  | none => false
  | some s => !(s == "")

def dedupStep (st : List Paper × List String) (p : Paper) : List Paper × List String :=
  match p.arxiv_id with
  | some s =>
    if s = "" then (st.1 ++ [p], st.2)
    else if s ∈ st.2 then st
    else (st.1 ++ [p], st.2 ++ [s])
  | none => (st.1 ++ [p], st.2)

/-- The merged, deduplicated list (source lines 255-265), before sorting. -/
def mergeDedup (all_author_papers : List (List Paper)) : List Paper :=
  (all_author_papers.foldl (fun st papers => papers.foldl dedupStep st) ([], [])).1

/-- `lambda p: p['updated']` compared descending. -/
def paperGe (p q : Paper) : Bool := lexLe q.updated.data p.updated.data

def sortInsert (p : Paper) : List Paper → List Paper
  | [] => [p]
  | q :: qs => if paperGe p q then p :: q :: qs else q :: sortInsert p qs

/-- Stable descending sort by the raw `updated` string (source line 268). -/
def sortPapers : List Paper → List Paper
  | [] => []
  | p :: ps => sortInsert p (sortPapers ps)

/-- The aggregated sequence handed to the rendering loop. -/
def aggregatePapers (ll : List (List Paper)) : List Paper := sortPapers (mergeDedup ll)

/-!
## Rendering (source lines 270-332)

`generate_html` takes the per-author paper lists (the `'papers'` values of
`all_author_papers`, in configured author order) plus the generation
timestamp string (`datetime.now().strftime(...)`, nondeterministic in the
source, hence a parameter).  The f-string template is split at each
interpolation point into the literal chunks below; `\x7b`/`\x7d` denote
the braces of the inline CSS/JS and `\x27` the apostrophes. -/

def joinComma (l : List String) : String := String.intercalate ", " l

def rpChunk1 : String := "\n        <div class=\"paper\">\n            <div class=\"paper-title\">\n                <a href=\""

def rpChunk2 : String := "\" target=\"_blank\" rel=\"noopener noreferrer\">"

def rpChunk3 : String := "</a>\n            </div>\n            <div class=\"paper-authors\">\n                "

def rpChunk4 : String := "\n            </div>\n            <div class=\"paper-meta\">\n                <span>\uF8FF\u00FC\u00EC\u00D6 "

def rpChunk5 : String := "</span>\n"

/-- The optional identifier badge (source lines 292-294), guarded by
Python truthiness of the id. -/
def rpBadge (p : Paper) : String :=
  if truthy p.arxiv_id then
    "                <span>\uF8FF\u00FC\u00EE\u00F1 " ++ escapeS (p.arxiv_id.getD "") ++ "</span>\n"
  else ""

/-- The optional category badge (source lines 296-298), guarded by
truthiness of the joined category string. -/
def rpCats (catStr : String) : String :=
  if catStr == "" then ""
  else "                <span>\uF8FF\u00FC\u00E8\u2211\u00D4\u220F\u00E8 " ++ escapeS catStr ++ "</span>\n"

def rpChunk6 : String := "            </div>\n            <div class=\"paper-abstract collapsed\" id=\""

def rpChunk7 : String := "\">\n                "

def rpChunk8 : String := "\n            </div>\n            <span class=\"show-more\" onclick=\"toggleAbstract(\x27"

def rpChunk9 : String := "\x27, this)\">Show more</span>\n        </div>\n"

/-- One iteration of the paper-rendering loop (source lines 276-306). -/
def renderPaper (idx : Nat) (p : Paper) : String :=
  rpChunk1 ++ escapeS p.url ++ rpChunk2 ++ escapeS p.title ++ rpChunk3 ++
  escapeS (joinComma p.authors) ++ rpChunk4 ++ format_date p.published ++ rpChunk5 ++
  rpBadge p ++ rpCats (if p.categories.isEmpty then "" else joinComma p.categories) ++
  rpChunk6 ++ ("abstract-" ++ toString idx) ++ rpChunk7 ++ escapeS p.summary ++ rpChunk8 ++
  ("abstract-" ++ toString idx) ++ rpChunk9

def noResultsDiv : String := "\n        <div class=\"no-results\">No papers found</div>\n"

def footerPre : String := "\n        <div class=\"last-updated\">Generated: "

/-- The paper-count segment of the footer with its pluralization
(source line 313). -/
def countSegment (n : Nat) : String :=
  " | " ++ toString n ++ " paper" ++ (if n != 1 then "s" else "") ++ " displayed</div>"

/-- The closing part of the page: container close and the inline
expand/collapse script (source lines 313-330 after the footer line). -/
def footerPost : String := "\n    </div>\n\n    <script>\n        function toggleAbstract(id, element) \x7b\n            const abstract = document.getElementById(id);\n            if (abstract.classList.contains(\x27collapsed\x27)) \x7b\n                abstract.classList.remove(\x27collapsed\x27);\n                element.textContent = \x27Show less\x27;\n            \x7d else \x7b\n                abstract.classList.add(\x27collapsed\x27);\n                element.textContent = \x27Show more\x27;\n            \x7d\n        \x7d\n    </script>\n</body>\n</html>\n"

/-- The static page head with inline styles (source lines 128-252). -/
def htmlHeader : String := "<!DOCTYPE html>
<html lang=\"en\">
<head>
    <meta charset=\"UTF-8\">
    <meta name=\"viewport\" content=\"width=device-width, initial-scale=1.0\">
    <title>arXiv Author Papers</title>
    <style>
        * \x7b
            margin: 0;
            padding: 0;
            box-sizing: border-box;
        \x7d
        
        body \x7b
            font-family: -apple-system, BlinkMacSystemFont, \x27Segoe UI\x27, Roboto, Oxygen, Ubuntu, Cantarell, sans-serif;
            background: #ffffff;
            padding: 20px;
            color: #333;
        \x7d
        
        .container \x7b
            max-width: 900px;
            margin: 0 auto;
        \x7d
        
        h1 \x7b
            font-size: 24px;
            margin-bottom: 20px;
            color: #2c3e50;
            border-bottom: 2px solid #3498db;
            padding-bottom: 10px;
        \x7d
        
        .paper \x7b
            background: white;
            border: 1px solid #e1e8ed;
            border-radius: 8px;
            padding: 20px;
            margin-bottom: 15px;
            transition: box-shadow 0.2s;
        \x7d
        
        .paper:hover \x7b
            box-shadow: 0 2px 8px rgba(0,0,0,0.1);
        \x7d
        
        .paper-title \x7b
            font-size: 18px;
            font-weight: 600;
            color: #2c3e50;
            margin-bottom: 8px;
            line-height: 1.4;
        \x7d
        
        .paper-title a \x7b
            color: #3498db;
            text-decoration: none;
        \x7d
        
        .paper-title a:hover \x7b
            text-decoration: underline;
        \x7d
        
        .paper-authors \x7b
            color: #555;
            font-size: 14px;
            margin-bottom: 8px;
        \x7d
        
        .paper-meta \x7b
            display: flex;
            gap: 15px;
            font-size: 13px;
            color: #7f8c8d;
            margin-bottom: 10px;
            flex-wrap: wrap;
        \x7d
        
        .paper-abstract \x7b
            color: #555;
            font-size: 14px;
            line-height: 1.6;
            margin-top: 10px;
            padding-top: 10px;
            border-top: 1px solid #f0f0f0;
        \x7d
        
        .paper-abstract.collapsed \x7b
            display: -webkit-box;
            -webkit-line-clamp: 3;
            -webkit-box-orient: vertical;
            overflow: hidden;
        \x7d
        
        .show-more \x7b
            color: #3498db;
            cursor: pointer;
            font-size: 13px;
            margin-top: 5px;
            display: inline-block;
        \x7d
        
        .show-more:hover \x7b
            text-decoration: underline;
        \x7d
        
        .no-results \x7b
            text-align: center;
            padding: 40px;
            color: #7f8c8d;
            font-size: 16px;
        \x7d
        
        .last-updated \x7b
            text-align: center;
            color: #95a5a6;
            font-size: 12px;
            margin-top: 20px;
        \x7d
    </style>
</head>
<body>
    <div class=\"container\">
        <h1>Recent arXiv Papers</h1>
"

/-- `generate_html` (source lines 125-332): aggregation then templating.
`now` is the `datetime.now().strftime('%b %d, %Y at %I:%M %p')` string,
a parameter because it is the one nondeterministic input. -/
def generate_html (now : String) (all_author_papers : List (List Paper)) : String :=
  htmlHeader ++
  (if (aggregatePapers all_author_papers).isEmpty then noResultsDiv
   else String.join ((aggregatePapers all_author_papers).enum.map
     (fun ip => renderPaper ip.1 ip.2))) ++
  footerPre ++ now ++ countSegment (aggregatePapers all_author_papers).length ++ footerPost

/-!
## Basic lemmas about the string primitives
-/

theorem strData_append (a b : String) : (a ++ b).data = a.data ++ b.data := by
  cases a; cases b; rfl

theorem strData_mk (l : List Char) : (String.mk l).data = l := rfl

theorem containsS_of_middle (x pre post : String) :
    containsS x (pre ++ x ++ post) = true := by
  unfold containsS
  rw [strData_append, strData_append]
  exact containsL_of_middle x.data pre.data post.data

theorem containsS_append_right (pat a b : String)
    (h : containsS pat b = true) : containsS pat (a ++ b) = true := by
  unfold containsS at *
  rw [strData_append]
  exact containsL_append_right _ _ _ h

theorem containsS_append_left (pat a b : String)
    (h : containsS pat a = true) : containsS pat (a ++ b) = true := by
  unfold containsS at *
  rw [strData_append]
  exact containsL_append_left _ _ _ h

theorem lexLe_refl (l : List Char) : lexLe l l = true := by
  induction l with
  | nil => rfl
  | cons c cs ih => simp [lexLe, ih]

theorem lexLe_total (a b : List Char) : lexLe a b = true ∨ lexLe b a = true := by
  induction a generalizing b with
  | nil => exact Or.inl rfl
  | cons x xs ih =>
    cases b with
    | nil => exact Or.inr rfl
    | cons y ys =>
      rcases Nat.lt_trichotomy x.toNat y.toNat with h | h | h
      · exact Or.inl (by simp [lexLe, Nat.blt_eq, h])
      · have hxy : x = y := Char.eq_of_val_eq (by
          apply UInt32.eq_of_val_eq
          exact Fin.eq_of_val_eq h)
        subst hxy
        rcases ih ys with h' | h'
        · exact Or.inl (by simp [lexLe, h'])
        · exact Or.inr (by simp [lexLe, h'])
      · exact Or.inr (by simp [lexLe, Nat.blt_eq, h])

theorem lexLe_trans (a b c : List Char) (hab : lexLe a b = true)
    (hbc : lexLe b c = true) : lexLe a c = true := by
  induction a generalizing b c with
  | nil => rfl
  | cons x xs ih =>
    cases b with
    | nil => simp [lexLe] at hab
    | cons y ys =>
      cases c with
      | nil => simp [lexLe] at hbc
      | cons z zs =>
        simp only [lexLe, Bool.or_eq_true, Bool.and_eq_true, Nat.blt_eq, beq_iff_eq] at hab hbc ⊢
        rcases hab with hab | ⟨rfl, hab⟩
        · rcases hbc with hbc | ⟨rfl, hbc⟩
          · exact Or.inl (Nat.lt_trans hab hbc)
          · exact Or.inl hab
        · rcases hbc with hbc | ⟨rfl, hbc⟩
          · exact Or.inl hbc
          · exact Or.inr ⟨rfl, ih ys zs hab hbc⟩

theorem lexLe_nil_right (l : List Char) (h : lexLe l [] = true) : l = [] := by
  cases l with
  | nil => rfl
  | cons c cs => simp [lexLe] at h

/-!
## Lemmas about the HTML escape function
-/

theorem escapeL_append (a b : List Char) :
    escapeL (a ++ b) = escapeL a ++ escapeL b := by
  induction a with
  | nil => rfl
  | cons c cs ih => simp [escapeL, ih]

theorem lt_not_mem_escapeChar (c : Char) : '<' ∉ escapeChar c := by
  unfold escapeChar
  split_ifs with h1 h2 h3 h4 h5
  · decide
  · decide
  · decide
  · decide
  · decide
  · simp only [List.mem_singleton]
    exact fun h => h2 h.symm

theorem lt_not_mem_escapeL (l : List Char) : '<' ∉ escapeL l := by
  induction l with
  | nil => simp [escapeL]
  | cons c cs ih =>
    simp only [escapeL, List.mem_append]
    rintro (h | h)
    · exact lt_not_mem_escapeChar c h
    · exact ih h

theorem escapeL_no_script (l : List Char) :
    containsL "<script>".data (escapeL l) = false := by
  by_contra h
  have h' : containsL "<script>".data (escapeL l) = true := by
    cases hb : containsL "<script>".data (escapeL l)
    · exact absurd hb h
    · rfl
  exact lt_not_mem_escapeL l
    (mem_of_containsL _ _ '<' (by decide) h')

theorem escapeL_contains_of_contains (pat l : List Char)
    (h : containsL pat l = true) :
    containsL (escapeL pat) (escapeL l) = true := by
  rcases (containsL_iff pat l).mp h with ⟨x, y, rfl⟩
  rw [escapeL_append, escapeL_append]
  exact containsL_of_middle _ _ _

/-!
## Deduplication lemmas

`dedupGo` is the loop of source lines 258-265 restated as structural
recursion (the accumulating output list made explicit); `foldl_dedupStep`
proves it equal to the fold over the flattened input. -/

def dedupGo (seen : List String) : List Paper → List Paper × List String
  | [] => ([], seen)
  | p :: ps =>
    match p.arxiv_id with
    | some s =>
      if s = "" then
        ((p :: (dedupGo seen ps).1), (dedupGo seen ps).2)
      else if s ∈ seen then dedupGo seen ps
      else ((p :: (dedupGo (seen ++ [s]) ps).1), (dedupGo (seen ++ [s]) ps).2)
    | none => ((p :: (dedupGo seen ps).1), (dedupGo seen ps).2)

theorem foldl_dedupStep (l : List Paper) (acc : List Paper) (seen : List String) :
    List.foldl dedupStep (acc, seen) l =
      (acc ++ (dedupGo seen l).1, (dedupGo seen l).2) := by
  induction l generalizing acc seen with
  | nil => simp [dedupGo]
  | cons p ps ih =>
    rw [List.foldl_cons]
    cases hid : p.arxiv_id with
    | none =>
      have h1 : dedupStep (acc, seen) p = (acc ++ [p], seen) := by
        simp [dedupStep, hid]
      rw [h1, ih]
      simp [dedupGo, hid]
    | some s =>
      by_cases hs : s = ""
      · have h1 : dedupStep (acc, seen) p = (acc ++ [p], seen) := by
          simp [dedupStep, hid, hs]
        rw [h1, ih]
        simp [dedupGo, hid, hs]
      · by_cases hc : s ∈ seen
        · have h1 : dedupStep (acc, seen) p = (acc, seen) := by
            simp [dedupStep, hid, hs, hc]
          rw [h1, ih]
          simp [dedupGo, hid, hs, hc]
        · have h1 : dedupStep (acc, seen) p = (acc ++ [p], seen ++ [s]) := by
            simp [dedupStep, hid, hs, hc]
          rw [h1, ih]
          simp [dedupGo, hid, hs, hc]

theorem mergeDedup_eq (ll : List (List Paper)) :
    mergeDedup ll = (dedupGo [] ll.flatten).1 := by
  unfold mergeDedup
  rw [← List.foldl_flatten, foldl_dedupStep]
  simp

theorem dedupGo_not_mem (l : List Paper) (seen : List String) (s : String)
    (hs : ¬ s = "") (hmem : s ∈ seen) :
    ∀ q ∈ (dedupGo seen l).1, q.arxiv_id ≠ some s := by
  induction l generalizing seen with
  | nil => simp [dedupGo]
  | cons p ps ih =>
    cases hid : p.arxiv_id with
    | none =>
      simp only [dedupGo, hid, List.mem_cons]
      rintro q (rfl | hq)
      · simp [hid]
      · exact ih seen hmem q hq
    | some t =>
      by_cases ht : t = ""
      · simp only [dedupGo, hid, ht, if_pos, List.mem_cons]
        rintro q (rfl | hq)
        · rw [hid, ht]
          intro h
          exact hs (Option.some_inj.mp h).symm
        · exact ih seen hmem q hq
      · by_cases hc : t ∈ seen
        · simp only [dedupGo, hid, if_neg ht, if_pos hc]
          exact ih seen hmem
        · simp only [dedupGo, hid, if_neg ht, if_neg hc, List.mem_cons]
          rintro q (rfl | hq)
          · rw [hid]
            intro h
            exact hc ((Option.some_inj.mp h) ▸ hmem)
          · exact ih (seen ++ [t]) (List.mem_append.mpr (Or.inl hmem)) q hq

/-- Relation between two kept records: they never share a non-empty id. -/
def distinctIds (a b : Paper) : Prop :=
  ∀ s : String, s ≠ "" → a.arxiv_id = some s → b.arxiv_id ≠ some s

theorem dedupGo_pairwise (l : List Paper) (seen : List String) :
    (dedupGo seen l).1.Pairwise distinctIds := by
  induction l generalizing seen with
  | nil => simp [dedupGo]
  | cons p ps ih =>
    cases hid : p.arxiv_id with
    | none =>
      simp only [dedupGo, hid]
      exact List.Pairwise.cons (fun q _ s _ hp => by simp [hid] at hp) (ih seen)
    | some t =>
      by_cases ht : t = ""
      · simp only [dedupGo, hid, ht, if_pos]
        refine List.Pairwise.cons (fun q _ s hs hp => ?_) (ih seen)
        rw [hid, ht] at hp
        exact absurd (Option.some_inj.mp hp).symm hs
      · by_cases hc : t ∈ seen
        · simpa only [dedupGo, hid, if_neg ht, if_pos hc] using ih seen
        · simp only [dedupGo, hid, if_neg ht, if_neg hc]
          refine List.Pairwise.cons (fun q hq s hs hp => ?_) (ih (seen ++ [t]))
          rw [hid] at hp
          have hts : t = s := Option.some_inj.mp hp
          exact dedupGo_not_mem ps (seen ++ [t]) s hs
            (by simp [← hts]) q hq

theorem dedupGo_sublist (l : List Paper) (seen : List String) :
    List.Sublist (dedupGo seen l).1 l := by
  induction l generalizing seen with
  | nil => simp [dedupGo]
  | cons p ps ih =>
    cases hid : p.arxiv_id with
    | none =>
      simp only [dedupGo, hid]
      exact List.Sublist.cons₂ p (ih seen)
    | some t =>
      by_cases ht : t = ""
      · simp only [dedupGo, hid, ht, if_pos]
        exact List.Sublist.cons₂ p (ih seen)
      · by_cases hc : t ∈ seen
        · simp only [dedupGo, hid, if_neg ht, if_pos hc]
          exact List.Sublist.cons p (ih seen)
        · simp only [dedupGo, hid, if_neg ht, if_neg hc]
          exact List.Sublist.cons₂ p (ih (seen ++ [t]))

theorem find_cons_false (pr : Paper → Bool) (p : Paper) (l : List Paper)
    (h : pr p = false) : List.find? pr (p :: l) = List.find? pr l := by
  simp [List.find?_cons, h]

theorem find_cons_true (pr : Paper → Bool) (p : Paper) (l : List Paper)
    (h : pr p = true) : List.find? pr (p :: l) = some p := by
  simp [List.find?_cons, h]

theorem dedupGo_find (l : List Paper) (seen : List String) (s : String)
    (hs : ¬ s = "") (hns : s ∉ seen) :
    (dedupGo seen l).1.find? (fun p => p.arxiv_id == some s) =
      l.find? (fun p => p.arxiv_id == some s) := by
  induction l generalizing seen with
  | nil => simp [dedupGo]
  | cons p ps ih =>
    cases hid : p.arxiv_id with
    | none =>
      have hp : (fun q : Paper => q.arxiv_id == some s) p = false := by simp [hid]
      simp only [dedupGo, hid]
      rw [find_cons_false _ _ _ hp, find_cons_false _ _ _ hp]
      exact ih seen hns
    | some t =>
      by_cases hts : t = s
      · subst hts
        have hp : (fun q : Paper => q.arxiv_id == some t) p = true := by simp [hid]
        simp only [dedupGo, hid, if_neg hs, if_neg hns]
        rw [find_cons_true _ _ _ hp, find_cons_true _ _ _ hp]
      · have hp : (fun q : Paper => q.arxiv_id == some s) p = false := by
          simp [hid, hts]
        by_cases ht : t = ""
        · simp only [dedupGo, hid, ht, if_pos]
          rw [find_cons_false _ _ _ hp, find_cons_false _ _ _ hp]
          exact ih seen hns
        · by_cases hc : t ∈ seen
          · simp only [dedupGo, hid, if_neg ht, if_pos hc]
            rw [find_cons_false _ _ _ hp]
            exact ih seen hns
          · simp only [dedupGo, hid, if_neg ht, if_neg hc]
            rw [find_cons_false _ _ _ hp, find_cons_false _ _ _ hp]
            have hmem : s ∉ seen ++ [t] := by
              simp only [List.mem_append, List.mem_singleton]
              rintro (h | h)
              · exact hns h
              · exact hts h.symm
            exact ih (seen ++ [t]) hmem

theorem dedupGo_filter (l : List Paper) (seen : List String) (pr : Paper → Bool)
    (h : ∀ p : Paper, truthy p.arxiv_id = true → pr p = false) :
    (dedupGo seen l).1.filter pr = l.filter pr := by
  induction l generalizing seen with
  | nil => simp [dedupGo]
  | cons p ps ih =>
    cases hid : p.arxiv_id with
    | none =>
      simp only [dedupGo, hid, List.filter_cons]
      rw [ih seen]
    | some t =>
      by_cases ht : t = ""
      · simp only [dedupGo, hid, ht, if_pos, List.filter_cons]
        rw [ih seen]
      · by_cases hc : t ∈ seen
        · have hpr : pr p = false := h p (by simp [truthy, hid, ht])
          simp only [dedupGo, hid, if_neg ht, if_pos hc, List.filter_cons, hpr,
            Bool.false_eq_true, if_neg]
          exact ih seen
        · simp only [dedupGo, hid, if_neg ht, if_neg hc, List.filter_cons]
          rw [ih (seen ++ [t])]

/-!
## Sorting lemmas

Stable descending insertion sort: sortedness, and the stability
characterization `filter (key = k) (sort l) = filter (key = k) l`. -/

theorem paperGe_total (p q : Paper) (h : ¬ paperGe p q = true) : paperGe q p = true := by
  unfold paperGe at *
  rcases lexLe_total q.updated.data p.updated.data with h' | h'
  · exact absurd h' h
  · exact h'

theorem paperGe_trans (p q r : Paper) (h1 : paperGe p q = true)
    (h2 : paperGe q r = true) : paperGe p r = true :=
  lexLe_trans _ _ _ h2 h1

theorem sortInsert_pos (p q : Paper) (qs : List Paper) (h : paperGe p q = true) :
    sortInsert p (q :: qs) = p :: q :: qs := by
  simp [sortInsert, h]

theorem sortInsert_neg (p q : Paper) (qs : List Paper) (h : ¬ paperGe p q = true) :
    sortInsert p (q :: qs) = q :: sortInsert p qs := by
  simp [sortInsert, h]

theorem mem_sortInsert (p : Paper) (l : List Paper) (q : Paper) :
    q ∈ sortInsert p l ↔ q = p ∨ q ∈ l := by
  induction l with
  | nil => simp [sortInsert]
  | cons r rs ih =>
    by_cases h : paperGe p r = true
    · rw [sortInsert_pos p r rs h]
      simp [List.mem_cons]
    · rw [sortInsert_neg p r rs h]
      simp only [List.mem_cons, ih]
      tauto

theorem sortInsert_pairwise (p : Paper) (l : List Paper)
    (hl : l.Pairwise (fun a b => paperGe a b = true)) :
    (sortInsert p l).Pairwise (fun a b => paperGe a b = true) := by
  induction l with
  | nil => simp [sortInsert]
  | cons q qs ih =>
    rcases List.pairwise_cons.mp hl with ⟨hq, hqs⟩
    by_cases h : paperGe p q = true
    · rw [sortInsert_pos p q qs h]
      refine List.Pairwise.cons ?_ hl
      intro r hr
      rcases List.mem_cons.mp hr with rfl | hr
      · exact h
      · exact paperGe_trans p q r h (hq r hr)
    · rw [sortInsert_neg p q qs h]
      refine List.Pairwise.cons ?_ (ih hqs)
      intro r hr
      rcases (mem_sortInsert p qs r).mp hr with h2 | hr
      · rw [h2]
        exact paperGe_total p q h
      · exact hq r hr

theorem sortPapers_pairwise (l : List Paper) :
    (sortPapers l).Pairwise (fun a b => paperGe a b = true) := by
  induction l with
  | nil => simp [sortPapers]
  | cons p ps ih => exact sortInsert_pairwise p (sortPapers ps) ih

theorem filter_sortInsert (p : Paper) (l : List Paper) (k : String) :
    (sortInsert p l).filter (fun q => q.updated == k) =
      if p.updated = k then p :: l.filter (fun q => q.updated == k)
      else l.filter (fun q => q.updated == k) := by
  induction l with
  | nil =>
    by_cases hp : p.updated = k
    · simp [sortInsert, List.filter_cons, hp]
    · simp [sortInsert, List.filter_cons, hp]
  | cons q qs ih =>
    by_cases h : paperGe p q = true
    · rw [sortInsert_pos p q qs h]
      by_cases hp : p.updated = k
      · simp [List.filter_cons, hp]
      · simp [List.filter_cons, hp]
    · rw [sortInsert_neg p q qs h, List.filter_cons, List.filter_cons, ih]
      by_cases hp : p.updated = k
      · have hq : ¬ q.updated = k := by
          intro hq
          apply h
          unfold paperGe
          rw [hq, hp]
          exact lexLe_refl _
        simp [hp, hq]
      · simp [hp]

theorem filter_sortPapers (l : List Paper) (k : String) :
    (sortPapers l).filter (fun q => q.updated == k) =
      l.filter (fun q => q.updated == k) := by
  induction l with
  | nil => rfl
  | cons p ps ih =>
    simp only [sortPapers, filter_sortInsert, List.filter_cons, ih]
    by_cases hp : p.updated = k
    · simp [hp]
    · simp [hp]

/-!
## Claims C1 and C2: aggregation invariants
-/

/-- A concrete paper record for witnesses. -/
def samplePaper (t u : String) (aid : Option String) : Paper :=
  { title := t, summary := "", authors := [], published := "", updated := u,
    url := "", arxiv_id := aid, categories := [] }

/-- Claim C1: the merged output of the Aggregator (source lines 254-265)
contains no two records with the same non-empty `externalId`; the merge
is a subsequence of the author-ordered concatenation of the inputs, the
record kept for a non-empty id is the first occurrence in iteration
order (authors in configured order, papers in feed order), and records
with absent id are all appended, never deduplicated. -/
theorem aggregator_dedup_first_wins (ll : List (List Paper)) :
    (mergeDedup ll).Pairwise distinctIds ∧
    List.Sublist (mergeDedup ll) ll.flatten ∧
    (∀ s : String, s ≠ "" →
      (mergeDedup ll).find? (fun p => p.arxiv_id == some s) =
        ll.flatten.find? (fun p => p.arxiv_id == some s)) ∧
    (mergeDedup ll).filter (fun p => p.arxiv_id == none) =
      ll.flatten.filter (fun p => p.arxiv_id == none) := by
  rw [mergeDedup_eq]
  refine ⟨dedupGo_pairwise _ _, dedupGo_sublist _ _,
    fun s hs => dedupGo_find _ _ s hs (by simp), dedupGo_filter _ _ _ ?_⟩
  intro p hp
  cases hpi : p.arxiv_id with
  | none =>
    rw [hpi] at hp
    exact absurd hp (by simp [truthy])
  | some t => simp [hpi]

/-- Witness for C1 on the spec's two-author scenario: the kept copy of
id 9901.2 is author A's. -/
theorem aggregator_dedup_first_wins_witness :
    (mergeDedup [[samplePaper "P1" "2024-01-02" (some "9901.1"),
                  samplePaper "P2" "2024-01-05" (some "9901.2")],
                 [samplePaper "P2b" "2024-01-05" (some "9901.2"),
                  samplePaper "P3" "2024-01-01" (some "9901.3")]]).find?
        (fun p => p.arxiv_id == some "9901.2") =
      (List.flatten [[samplePaper "P1" "2024-01-02" (some "9901.1"),
                      samplePaper "P2" "2024-01-05" (some "9901.2")],
                     [samplePaper "P2b" "2024-01-05" (some "9901.2"),
                      samplePaper "P3" "2024-01-01" (some "9901.3")]]).find?
        (fun p => p.arxiv_id == some "9901.2") :=
  (aggregator_dedup_first_wins
    [[samplePaper "P1" "2024-01-02" (some "9901.1"),
      samplePaper "P2" "2024-01-05" (some "9901.2")],
     [samplePaper "P2b" "2024-01-05" (some "9901.2"),
      samplePaper "P3" "2024-01-01" (some "9901.3")]]).2.2.1 "9901.2" (by decide)

/-- Claim C2: the final aggregated sequence (source lines 254-268) is
sorted by the raw `updated` string in descending lexicographic order
(`paperGe`); the sort is stable with respect to the merged (post-dedup)
sequence, expressed by equality of the per-key filters; and once a
record with empty `updated` appears, every later record also has empty
`updated` (empty keys sink to the end). -/
theorem aggregator_sorted_stable (ll : List (List Paper)) :
    (aggregatePapers ll).Pairwise (fun a b => paperGe a b = true) ∧
    (∀ k : String, (aggregatePapers ll).filter (fun p => p.updated == k) =
      (mergeDedup ll).filter (fun p => p.updated == k)) ∧
    (∀ i j : Fin (aggregatePapers ll).length, i ≤ j →
      ((aggregatePapers ll).get i).updated = "" →
      ((aggregatePapers ll).get j).updated = "") := by
  refine ⟨sortPapers_pairwise _, fun k => filter_sortPapers _ k, ?_⟩
  intro i j hij hi
  by_cases heq : (i : Nat) = (j : Nat)
  · have hij2 : i = j := Fin.ext heq
    rw [← hij2]
    exact hi
  · have hlt : i < j := lt_of_le_of_ne hij (fun h => heq (congrArg Fin.val h))
    have hsp : (aggregatePapers ll).Pairwise (fun a b => paperGe a b = true) :=
      sortPapers_pairwise (mergeDedup ll)
    have hp := List.pairwise_iff_get.mp hsp i j hlt
    unfold paperGe at hp
    rw [hi] at hp
    exact String.ext (lexLe_nil_right _ hp)

/-- Witness for C2 on the spec's two-author scenario. -/
theorem aggregator_sorted_stable_witness :
    (aggregatePapers [[samplePaper "P1" "2024-01-02" (some "9901.1"),
                       samplePaper "P2" "2024-01-05" (some "9901.2")],
                      [samplePaper "P2b" "2024-01-05" (some "9901.2"),
                       samplePaper "P3" "2024-01-01" (some "9901.3")]]).filter
        (fun p => p.updated == "2024-01-05") =
      (mergeDedup [[samplePaper "P1" "2024-01-02" (some "9901.1"),
                    samplePaper "P2" "2024-01-05" (some "9901.2")],
                   [samplePaper "P2b" "2024-01-05" (some "9901.2"),
                    samplePaper "P3" "2024-01-01" (some "9901.3")]]).filter
        (fun p => p.updated == "2024-01-05") :=
  (aggregator_sorted_stable
    [[samplePaper "P1" "2024-01-02" (some "9901.1"),
      samplePaper "P2" "2024-01-05" (some "9901.2")],
     [samplePaper "P2b" "2024-01-05" (some "9901.2"),
      samplePaper "P3" "2024-01-01" (some "9901.3")]]).2.1 "2024-01-05"

/-!
## Claims C4 and C9: the parser
-/

theorem extractNames_ok (l : List (Option String)) (ns : List String)
    (h : extractNames l = .ok ns) : ns = l.map (fun a => a.getD "") := by
  induction l generalizing ns with
  | nil =>
    simp only [extractNames, Except.ok.injEq] at h
    simp [← h]
  | cons a rest ih =>
    cases a with
    | none => simp [extractNames] at h
    | some s =>
      cases hr : extractNames rest with
      | error u => simp [extractNames, hr] at h
      | ok ms =>
        simp only [extractNames, hr, Except.ok.injEq] at h
        simp [← h, ih ms hr]

theorem processEntry_ok (e : Entry) (r : Option Paper)
    (h : processEntry e = .ok r) :
    r = if keepEntry e then some (mkPaper e) else none := by
  obtain ⟨tE, sE, pE, uE, iE, aE, cE⟩ := e
  cases hA : extractNames aE with
  | error u => simp [processEntry, hA] at h
  | ok names =>
    have hnames := extractNames_ok aE names hA
    subst hnames
    cases tE with
    | none =>
      cases iE with
      | none =>
        simp only [processEntry, hA, entry_arxiv_id, Except.ok.injEq] at h
        simp [keepEntry, ← h]
      | some uOpt =>
        cases uOpt with
        | none => simp [processEntry, hA, entry_arxiv_id] at h
        | some u =>
          simp only [processEntry, hA, entry_arxiv_id, Except.ok.injEq] at h
          simp [keepEntry, ← h]
    | some tOpt =>
      cases iE with
      | none =>
        simp only [processEntry, hA, entry_arxiv_id, Except.ok.injEq] at h
        simp [keepEntry, ← h]
      | some uOpt =>
        cases uOpt with
        | none => simp [processEntry, hA, entry_arxiv_id] at h
        | some u =>
          cases tOpt with
          | none => simp [processEntry, hA, entry_arxiv_id] at h
          | some t =>
            cases sE with
            | none =>
              simp only [processEntry, hA, entry_arxiv_id, Except.ok.injEq] at h
              simp [keepEntry, mkPaper, ← h, show trimS "" = "" from rfl]
            | some sOpt =>
              cases sOpt with
              | none => simp [processEntry, hA, entry_arxiv_id] at h
              | some sm =>
                simp only [processEntry, hA, entry_arxiv_id, Except.ok.injEq] at h
                simp [keepEntry, mkPaper, ← h]

theorem parseEntries_ok (l : List Entry) (ps : List Paper)
    (h : parseEntries l = .ok ps) :
    ps = (l.filter keepEntry).map mkPaper := by
  induction l generalizing ps with
  | nil =>
    simp only [parseEntries, Except.ok.injEq] at h
    simp [← h]
  | cons e es ih =>
    cases hpe : processEntry e with
    | error u => simp [parseEntries, hpe] at h
    | ok r =>
      cases hrest : parseEntries es with
      | error u => simp [parseEntries, hpe, hrest] at h
      | ok rest =>
        simp only [parseEntries, hpe, hrest, Except.ok.injEq] at h
        have hr := processEntry_ok e r hpe
        have hrest2 := ih rest hrest
        by_cases hk : keepEntry e = true
        · rw [if_pos hk] at hr
          subst hr
          simp only [List.filter_cons, hk, if_pos]
          simp [← h, hrest2]
        · rw [if_neg hk] at hr
          subst hr
          have hk2 : keepEntry e = false := by
            cases hkk : keepEntry e
            · rfl
            · exact absurd hkk hk
          simp only [List.filter_cons, hk2, Bool.false_eq_true, if_neg]
          simp [← h, hrest2]

/-- Claim C4: the parser considers only the first
`MAX_PAPERS_PER_AUTHOR` entries in feed order; within those, on the
non-raising path, an entry is excluded exactly when it lacks a title
element or lacks an id element (`keepEntry`); the output is the
order-preserving image of the kept entries and has length at most the
cap.  (The cap is applied by the parser itself, before the Aggregator
ever sees the records.) -/
theorem parser_cap_and_skip (entries : List Entry) (ps : List Paper)
    (h : parseEntries (entries.take MAX_PAPERS_PER_AUTHOR) = .ok ps) :
    parse_atom_feed entries = ps ∧
    ps = ((entries.take MAX_PAPERS_PER_AUTHOR).filter keepEntry).map mkPaper ∧
    ps.length ≤ MAX_PAPERS_PER_AUTHOR := by
  have hchar := parseEntries_ok _ _ h
  refine ⟨by simp [parse_atom_feed, h], hchar, ?_⟩
  rw [hchar, List.length_map]
  refine le_trans (List.length_filter_le _ _) ?_
  rw [List.length_take]
  exact min_le_left _ _

/-- A complete, well-formed entry for witnesses. -/
def entryGood : Entry :=
  { title := some (some "A Title"), summary := some (some "Sum"),
    published := some "2024-01-02T00:00:00Z", updated := some "2024-01-02T00:00:00Z",
    idElem := some (some "http://arxiv.org/abs/2401.0001"),
    authors := [some "Alice"], categories := ["math.NT"] }

/-- An entry lacking its title element: skipped, not fatal. -/
def entryNoTitle : Entry := { entryGood with title := none }

/-- An entry whose title element exists but has null text:
`title.text.strip()` raises. -/
def entryBadTitle : Entry := { entryGood with title := some none }

/-- Witness for C4: a feed with one complete entry and one entry lacking
a title yields exactly the complete entry's record. -/
theorem parser_cap_and_skip_witness :
    parse_atom_feed [entryGood, entryNoTitle] = [mkPaper entryGood] ∧
    [mkPaper entryGood] =
      (([entryGood, entryNoTitle].take MAX_PAPERS_PER_AUTHOR).filter keepEntry).map mkPaper ∧
    [mkPaper entryGood].length ≤ MAX_PAPERS_PER_AUTHOR :=
  parser_cap_and_skip [entryGood, entryNoTitle] [mkPaper entryGood] (by rfl)

theorem parseEntries_error (l : List Entry) (e : Entry) (he : e ∈ l)
    (hr : processEntry e = .error ()) : parseEntries l = .error () := by
  induction l with
  | nil => simp at he
  | cons f fs ih =>
    rcases List.mem_cons.mp he with rfl | he2
    · simp [parseEntries, hr]
    · cases hf : processEntry f with
      | error u => simp [parseEntries, hf]
      | ok r => simp [parseEntries, hf, ih he2]

/-- Claim C9: if any entry among the first `MAX_PAPERS_PER_AUTHOR`
raises during extraction (e.g. a title element with null text, or an
author element without a name child — extracted before the skip check),
the parser returns the empty list for the whole feed, discarding every
entry already extracted. -/
theorem parser_discards_on_exception (entries : List Entry) (e : Entry)
    (h1 : e ∈ entries.take MAX_PAPERS_PER_AUTHOR)
    (h2 : processEntry e = .error ()) :
    parse_atom_feed entries = [] := by
  unfold parse_atom_feed
  rw [parseEntries_error _ e h1 h2]

/-- Witness for C9: one fully valid entry followed by a null-text title
entry makes the whole feed parse to the empty list (the valid prefix is
discarded). -/
theorem parser_discards_on_exception_witness :
    parse_atom_feed [entryGood, entryBadTitle] = [] :=
  parser_discards_on_exception [entryGood, entryBadTitle] entryBadTitle
    (by decide) (by rfl)

/-!
## Claim C3: HTML escaping in the renderer
-/

theorem containsL_self (l : List Char) : containsL l l = true :=
  (containsL_iff l l).mpr ⟨[], [], by simp⟩

theorem strJoin_data (l : List String) :
    (String.join l).data = (l.map String.data).flatten := by
  have H : ∀ (l : List String) (acc : String),
      (l.foldl (· ++ ·) acc).data = acc.data ++ (l.map String.data).flatten := by
    intro l
    induction l with
    | nil => intro acc; simp
    | cons x xs ih =>
      intro acc
      simp [List.foldl_cons, ih, strData_append]
  have h := H l ""
  simp only [show ("" : String).data = [] from rfl, List.nil_append] at h
  exact h

theorem renderPaper_contains_title (idx : Nat) (p : Paper) :
    containsL (escapeS p.title).data (renderPaper idx p).data = true := by
  simp only [renderPaper, strData_append, List.append_assoc]
  repeat
    first
    | exact containsL_append_left _ _ _ (containsL_self _)
    | apply containsL_append_right

theorem contains_join_render (sub : List Char) (papers : List Paper) (p : Paper)
    (hp : p ∈ papers)
    (hsub : ∀ i : Nat, containsL sub (renderPaper i p).data = true) :
    ∀ k, containsL sub
      (String.join ((papers.enumFrom k).map (fun ip => renderPaper ip.1 ip.2))).data = true := by
  induction papers generalizing p with
  | nil => simp at hp
  | cons q qs ih =>
    intro k
    rcases List.mem_cons.mp hp with rfl | hp2
    · simp only [List.enumFrom, List.map_cons, strJoin_data, List.flatten_cons]
      exact containsL_append_left _ _ _ (hsub k)
    · simp only [List.enumFrom, List.map_cons, strJoin_data, List.flatten_cons]
      have := ih p hp2 hsub (k + 1)
      rw [strJoin_data] at this
      exact containsL_append_right _ _ _ this

/-- Claim C3: every feed-supplied string field of a paper (url, title,
authors, summary, and — when present — the identifier badge text and the
category badge text) is inserted into the paper block only through
`escapeS`; for a title containing `<script>`, the escaped title appears
in the block (and in the whole rendered document), contains the entity
form `&lt;script&gt;`, and never contains raw `<script>` markup. -/
theorem renderer_escapes_feed_fields (p : Paper) (idx : Nat)
    (h : containsS "<script>" p.title = true) :
    containsS (escapeS p.title) (renderPaper idx p) = true ∧
    containsS "&lt;script&gt;" (escapeS p.title) = true ∧
    containsS "<script>" (escapeS p.title) = false ∧
    containsS (escapeS p.url) (renderPaper idx p) = true ∧
    containsS (escapeS (joinComma p.authors)) (renderPaper idx p) = true ∧
    containsS (escapeS p.summary) (renderPaper idx p) = true ∧
    (∀ a : String, p.arxiv_id = some a → a ≠ "" →
      containsS (escapeS a) (renderPaper idx p) = true) ∧
    (joinComma p.categories ≠ "" → p.categories ≠ [] →
      containsS (escapeS (joinComma p.categories)) (renderPaper idx p) = true) ∧
    (∀ (now : String) (ll : List (List Paper)), p ∈ aggregatePapers ll →
      containsS (escapeS p.title) (generate_html now ll) = true) := by
  refine ⟨renderPaper_contains_title idx p, ?_, ?_, ?_, ?_, ?_, ?_, ?_, ?_⟩
  · show containsL "&lt;script&gt;".data (escapeL p.title.data) = true
    have h2 := escapeL_contains_of_contains "<script>".data p.title.data h
    rwa [show escapeL "<script>".data = "&lt;script&gt;".data from by decide] at h2
  · exact escapeL_no_script p.title.data
  · simp only [containsS, renderPaper, strData_append, List.append_assoc]
    repeat
      first
      | exact containsL_append_left _ _ _ (containsL_self _)
      | apply containsL_append_right
  · simp only [containsS, renderPaper, strData_append, List.append_assoc]
    repeat
      first
      | exact containsL_append_left _ _ _ (containsL_self _)
      | apply containsL_append_right
  · simp only [containsS, renderPaper, strData_append, List.append_assoc]
    repeat
      first
      | exact containsL_append_left _ _ _ (containsL_self _)
      | apply containsL_append_right
  · intro a ha hne
    have hb : rpBadge p = "                <span>\uF8FF\u00FC\u00EE\u00F1 " ++ escapeS a ++ "</span>\n" := by
      simp [rpBadge, truthy, ha, hne]
    simp only [containsS, renderPaper, hb, strData_append, List.append_assoc]
    repeat
      first
      | exact containsL_append_left _ _ _ (containsL_self _)
      | apply containsL_append_right
  · intro hne hnil
    have hc : (if p.categories.isEmpty then "" else joinComma p.categories) =
        joinComma p.categories := by
      simp [List.isEmpty_iff, hnil]
    have hb : rpCats (if p.categories.isEmpty then "" else joinComma p.categories) =
        "                <span>\uF8FF\u00FC\u00E8\u2211\u00D4\u220F\u00E8 " ++ escapeS (joinComma p.categories) ++ "</span>\n" := by
      rw [hc]
      simp [rpCats, hne]
    simp only [containsS, renderPaper, hb, strData_append, List.append_assoc]
    repeat
      first
      | exact containsL_append_left _ _ _ (containsL_self _)
      | apply containsL_append_right
  · intro now ll hmem
    have hni : (aggregatePapers ll).isEmpty = false := by
      cases hb : (aggregatePapers ll).isEmpty
      · rfl
      · rw [List.isEmpty_iff] at hb
        rw [hb] at hmem
        simp at hmem
    simp only [containsS, generate_html, hni, Bool.false_eq_true, if_neg, strData_append,
      List.append_assoc]
    apply containsL_append_right
    apply containsL_append_left
    exact contains_join_render (escapeS p.title).data (aggregatePapers ll) p hmem
      (fun i => renderPaper_contains_title i p) 0

/-- A paper whose title carries a script-injection attempt. -/
def paperEvil : Paper :=
  samplePaper "Bad <script>alert(1)</script> title" "2024-01-02" (some "1234.5")

/-- Witness for C3: the escaped form of the malicious title contains the
entity form and the block contains the escaped title. -/
theorem renderer_escapes_feed_fields_witness :
    containsS "&lt;script&gt;" (escapeS paperEvil.title) = true :=
  (renderer_escapes_feed_fields paperEvil 0 (by decide)).2.1

/-!
## Claim C7: best-effort date formatting
-/

/-- Claim C7: `format_date` is total (the bare `except` swallows every
parse failure): for every input it either returns the input unchanged,
or the input (after replacing `Z` by `+00:00`) parses as ISO-8601 and
the result is the `Mon DD, YYYY` short form; in particular
`"not-a-date"` passes through unchanged and a well-formed UTC timestamp
is formatted. -/
theorem format_date_best_effort :
    (∀ s : String, format_date s = s ∨
      ∃ y m d : Nat,
        fromisoformat (replaceAllL "Z".data "+00:00".data s.data) = some (y, m, d) ∧
        format_date s = monthAbbrev m ++ " " ++ pad2 d ++ ", " ++ toString y) ∧
    format_date "not-a-date" = "not-a-date" ∧
    format_date "2024-01-05T12:30:00Z" = "Jan 05, 2024" := by
  refine ⟨?_, by decide, by decide⟩
  intro s
  cases hf : fromisoformat (replaceAllL "Z".data "+00:00".data s.data) with
  | none =>
    left
    simp [format_date, hf]
  | some t =>
    right
    obtain ⟨y, m, d⟩ := t
    exact ⟨y, m, d, rfl, by simp [format_date, hf, strftimeBdY]⟩

/-!
## Claim C8: footer pluralization
-/

theorem containsS_generate_html_tail (now : String) (ll : List (List Paper))
    (pat : String)
    (h : containsL pat.data (countSegment (aggregatePapers ll).length).data = true) :
    containsS pat (generate_html now ll) = true := by
  simp only [containsS, generate_html, strData_append, List.append_assoc]
  apply containsL_append_right
  apply containsL_append_right
  apply containsL_append_right
  apply containsL_append_right
  exact containsL_append_left _ _ _ h

/-- Claim C8: the rendered footer line contains "0 papers", "1 paper",
"2 papers" for aggregated counts 0, 1, 2, and in general the count
segment carries the plural "s" exactly when the count differs from 1. -/
theorem footer_pluralization (now : String) (ll : List (List Paper)) :
    ((aggregatePapers ll).length = 0 →
      containsS "0 papers" (generate_html now ll) = true) ∧
    ((aggregatePapers ll).length = 1 →
      containsS "1 paper" (generate_html now ll) = true ∧
      countSegment 1 = " | 1 paper displayed</div>") ∧
    ((aggregatePapers ll).length = 2 →
      containsS "2 papers" (generate_html now ll) = true) ∧
    (∀ n : Nat, containsS " papers" (countSegment n) = (n != 1)) := by
  refine ⟨?_, ?_, ?_, ?_⟩
  · intro h
    refine containsS_generate_html_tail now ll _ ?_
    rw [h]
    decide
  · intro h
    refine ⟨containsS_generate_html_tail now ll _ ?_, by decide⟩
    rw [h]
    decide
  · intro h
    refine containsS_generate_html_tail now ll _ ?_
    rw [h]
    decide
  · intro n
    by_cases hn : n = 1
    · subst hn
      decide
    · have hb : (n != 1) = true := by simp [hn]
      rw [hb]
      simp only [containsS, countSegment, hb, if_pos, strData_append, List.append_assoc]
      apply containsL_append_right
      apply containsL_append_right
      exact (containsL_iff _ _).mpr ⟨[], " displayed</div>".data, by decide⟩

/-- Witness for C8 at the empty aggregation: the document contains
"0 papers". -/
theorem footer_pluralization_witness :
    containsS "0 papers" (generate_html "Jan 01, 2024 at 12:00 AM" []) = true :=
  (footer_pluralization "Jan 01, 2024 at 12:00 AM" []).1 rfl

/-!
## Claim C5: feed URL construction

Python `str.replace` removes every occurrence of the pattern, not only a
prefix; the lemmas below characterize it on inputs with no occurrence
and on inputs that are the pattern followed by an occurrence-free
remainder. -/

theorem replGo_no_occurrence (pat repl : List Char) (fuel : Nat) (s : List Char)
    (hfuel : s.length ≤ fuel) (h : containsL pat s = false) :
    replGo pat repl fuel s = s := by
  induction fuel generalizing s with
  | zero =>
    cases s with
    | nil => rfl
    | cons c cs => simp at hfuel
  | succ f ih =>
    cases s with
    | nil => rfl
    | cons c cs =>
      have hsw : startsWithL pat (c :: cs) = false := by
        cases hb : startsWithL pat (c :: cs)
        · rfl
        · exfalso
          have h2 : containsL pat (c :: cs) = true := by simp [containsL, hb]
          rw [h2] at h
          exact Bool.noConfusion h
      have hcs : containsL pat cs = false := by
        cases hb : containsL pat cs
        · rfl
        · exfalso
          have h2 : containsL pat (c :: cs) = true := by simp [containsL, hb]
          rw [h2] at h
          exact Bool.noConfusion h
      rw [show replGo pat repl (f + 1) (c :: cs) = c :: replGo pat repl f cs from by
        simp [replGo, hsw]]
      rw [ih cs (by simp at hfuel; omega) hcs]

theorem replaceAllL_no_occurrence (pat repl s : List Char)
    (h : containsL pat s = false) : replaceAllL pat repl s = s :=
  replGo_no_occurrence pat repl s.length s (le_refl _) h

theorem replaceAllL_head (pat repl rest : List Char) (hp : pat ≠ [])
    (hrest : containsL pat rest = false) :
    replaceAllL pat repl (pat ++ rest) = repl ++ rest := by
  obtain ⟨a, as, rfl⟩ : ∃ a as, pat = a :: as := by
    cases pat with
    | nil => exact absurd rfl hp
    | cons a as => exact ⟨a, as, rfl⟩
  unfold replaceAllL
  simp only [List.cons_append]
  have hsw2 : startsWithL (a :: as) (a :: (as ++ rest)) = true := by
    apply (startsWithL_iff _ _).mpr
    exact ⟨rest, by simp⟩
  have hlen : (a :: (as ++ rest)).length = as.length + rest.length + 1 := by
    simp [List.length_append]
  rw [hlen]
  have hstep : replGo (a :: as) repl (as.length + rest.length + 1) (a :: (as ++ rest)) =
      repl ++ replGo (a :: as) repl (as.length + rest.length)
        (List.drop (a :: as).length (a :: (as ++ rest))) := by
    rw [show replGo (a :: as) repl (as.length + rest.length + 1) (a :: (as ++ rest)) =
        if startsWithL (a :: as) (a :: (as ++ rest)) then
          repl ++ replGo (a :: as) repl (as.length + rest.length)
            (List.drop (a :: as).length (a :: (as ++ rest)))
        else a :: replGo (a :: as) repl (as.length + rest.length) (as ++ rest) from rfl]
    rw [if_pos hsw2]
  rw [hstep]
  have hdrop : List.drop (a :: as).length (a :: (as ++ rest)) = rest := by
    rw [← List.cons_append]
    exact List.drop_left _ _
  rw [hdrop, replGo_no_occurrence _ _ _ _ (by omega) hrest]

/-- Modelled from the spec's words, for comparison only (the code is the
authority): strip one `https://orcid.org/` or `http://orcid.org/`
prefix from the id, leaving ids without such a prefix unchanged. -/
def stripOrcidPrefixSpec (idStr : String) : String :=
  if startsWithL "https://orcid.org/".data idStr.data then
    ⟨idStr.data.drop "https://orcid.org/".data.length⟩
  else if startsWithL "http://orcid.org/".data idStr.data then
    ⟨idStr.data.drop "http://orcid.org/".data.length⟩
  else idStr

/-- Counterexample to C5 as stated: for an orcid id in which the orcid
URL occurs in the middle rather than as a prefix, the code removes the
occurrence anyway (Python `str.replace` replaces everywhere), so the
built URL differs from the prefix-stripped substitution the claim
describes. -/
theorem fetch_url_strip_counterexample :
    fetch_feed_url { name := "N", id := "x1https://orcid.org/0000", type := "orcid" } =
      "https://arxiv.org/a/x10000.atom2" ∧
    stripOrcidPrefixSpec "x1https://orcid.org/0000" = "x1https://orcid.org/0000" ∧
    fetch_feed_url { name := "N", id := "x1https://orcid.org/0000", type := "orcid" } ≠
      "https://arxiv.org/a/" ++ stripOrcidPrefixSpec "x1https://orcid.org/0000" ++ ".atom2" :=
  ⟨by decide, by decide, by decide⟩

/-- Amended C5: for the orcid kind the fetcher substitutes the id with
every occurrence of `https://orcid.org/` and then `http://orcid.org/`
removed (Python replace-all); this coincides with prefix-stripping
whenever the id is exactly one orcid prefix followed by a remainder
free of both substrings.  The feed-native kind substitutes the raw id
unchanged. -/
theorem fetch_url_replace_all (a : Author) (rest : String) :
    (a.type ≠ "orcid" → fetch_feed_url a = "https://arxiv.org/a/" ++ a.id ++ ".atom2") ∧
    (a.type = "orcid" →
      fetch_feed_url a = "https://arxiv.org/a/" ++
        replaceAllS "http://orcid.org/" "" (replaceAllS "https://orcid.org/" "" a.id) ++
        ".atom2") ∧
    (a.type = "orcid" → a.id = "https://orcid.org/" ++ rest →
      containsS "https://orcid.org/" rest = false →
      containsS "http://orcid.org/" rest = false →
      fetch_feed_url a = "https://arxiv.org/a/" ++ rest ++ ".atom2") ∧
    (a.type = "orcid" → a.id = "http://orcid.org/" ++ rest →
      containsS "https://orcid.org/" a.id = false →
      containsS "http://orcid.org/" rest = false →
      fetch_feed_url a = "https://arxiv.org/a/" ++ rest ++ ".atom2") := by
  refine ⟨?_, ?_, ?_, ?_⟩
  · intro h
    have hb : (a.type == "orcid") = false := by
      simp only [beq_eq_false_iff_ne, ne_eq]
      exact h
    simp [fetch_feed_url, hb]
  · intro h
    simp [fetch_feed_url, h]
  · intro h hid h1 h2
    have hinner : replaceAllS "https://orcid.org/" "" a.id = rest := by
      apply String.ext
      show replaceAllL "https://orcid.org/".data [] a.id.data = rest.data
      rw [hid, strData_append]
      rw [replaceAllL_head _ _ _ (by decide) h1]
      simp
    have houter : replaceAllS "http://orcid.org/" "" rest = rest := by
      apply String.ext
      show replaceAllL "http://orcid.org/".data [] rest.data = rest.data
      exact replaceAllL_no_occurrence _ _ _ h2
    simp [fetch_feed_url, h, hinner, houter]
  · intro h hid h1 h2
    have hinner : replaceAllS "https://orcid.org/" "" a.id = a.id := by
      apply String.ext
      show replaceAllL "https://orcid.org/".data [] a.id.data = a.id.data
      exact replaceAllL_no_occurrence _ _ _ h1
    have houter : replaceAllS "http://orcid.org/" "" a.id = rest := by
      apply String.ext
      show replaceAllL "http://orcid.org/".data [] a.id.data = rest.data
      rw [hid, strData_append]
      rw [replaceAllL_head _ _ _ (by decide) h2]
      simp
    simp [fetch_feed_url, h, hinner, houter]

/-- The configured orcid author (source lines 27-31). -/
def authorOrcid : Author :=
  { name := "Dan Loughran", id := "https://orcid.org/0000-0001-5892-1564", type := "orcid" }

/-- Witness for the amended C5 on the configured orcid author. -/
theorem fetch_url_replace_all_witness :
    fetch_feed_url authorOrcid = "https://arxiv.org/a/0000-0001-5892-1564.atom2" :=
  (fetch_url_replace_all authorOrcid "0000-0001-5892-1564").2.2.1 rfl (by decide)
    (by decide) (by decide)

/-!
## Claim C6: externalId extraction
-/

theorem splitGo_no_occurrence (pat : List Char) (fuel : Nat) (acc s : List Char)
    (hfuel : s.length ≤ fuel) (h : containsL pat s = false) :
    splitGo pat fuel acc s = [acc.reverse ++ s] := by
  induction fuel generalizing acc s with
  | zero =>
    cases s with
    | nil => simp [splitGo]
    | cons c cs => simp at hfuel
  | succ f ih =>
    cases s with
    | nil => simp [splitGo]
    | cons c cs =>
      have hsw : startsWithL pat (c :: cs) = false := by
        cases hb : startsWithL pat (c :: cs)
        · rfl
        · exfalso
          have h2 : containsL pat (c :: cs) = true := by simp [containsL, hb]
          rw [h2] at h
          exact Bool.noConfusion h
      have hcs : containsL pat cs = false := by
        cases hb : containsL pat cs
        · rfl
        · exfalso
          have h2 : containsL pat (c :: cs) = true := by simp [containsL, hb]
          rw [h2] at h
          exact Bool.noConfusion h
      rw [show splitGo pat (f + 1) acc (c :: cs) = splitGo pat f (c :: acc) cs from by
        simp [splitGo, hsw]]
      rw [ih (c :: acc) cs (by simp at hfuel; omega) hcs]
      simp

theorem splitGo_ne_nil (pat : List Char) (fuel : Nat) (acc s : List Char) :
    splitGo pat fuel acc s ≠ [] := by
  induction fuel generalizing acc s with
  | zero =>
    cases s with
    | nil => simp [splitGo]
    | cons c cs => simp [splitGo]
  | succ f ih =>
    cases s with
    | nil => simp [splitGo]
    | cons c cs =>
      by_cases hsw : startsWithL pat (c :: cs) = true
      · simp [splitGo, hsw]
      · rw [show splitGo pat (f + 1) acc (c :: cs) = splitGo pat f (c :: acc) cs from by
          simp [splitGo, hsw]]
        exact ih (c :: acc) cs

theorem getLastD_cons_ne {α : Type} (a : α) (l : List α) (d : α) (h : l ≠ []) :
    (a :: l).getLastD d = l.getLastD d := by
  cases l with
  | nil => exact absurd rfl h
  | cons b t => rfl

theorem splitGo_last (pat : List Char) (fuel : Nat) (acc s : List Char)
    (hp : pat ≠ []) (hfuel : s.length ≤ fuel) (hc : containsL pat s = true) :
    ∃ l, acc.reverse ++ s = l ++ pat ++ (splitGo pat fuel acc s).getLastD [] ∧
      containsL pat ((splitGo pat fuel acc s).getLastD []) = false := by
  induction fuel generalizing acc s with
  | zero =>
    cases s with
    | nil =>
      exfalso
      cases pat with
      | nil => exact absurd rfl hp
      | cons p ps => simp [containsL, startsWithL] at hc
    | cons c cs => simp at hfuel
  | succ f ih =>
    cases s with
    | nil =>
      exfalso
      cases pat with
      | nil => exact absurd rfl hp
      | cons p ps => simp [containsL, startsWithL] at hc
    | cons c cs =>
      by_cases hsw : startsWithL pat (c :: cs) = true
      · rcases (startsWithL_iff _ _).mp hsw with ⟨r, hr⟩
        have hdrop : List.drop pat.length (c :: cs) = r := by
          rw [hr]
          exact List.drop_left _ _
        rw [show splitGo pat (f + 1) acc (c :: cs) =
            acc.reverse :: splitGo pat f [] (List.drop pat.length (c :: cs)) from by
          simp [splitGo, hsw]]
        rw [hdrop]
        have hrlen : r.length ≤ f := by
          have h1 : cs.length + 1 = pat.length + r.length := by
            have h3 := congrArg List.length hr
            simpa [List.length_append, Nat.add_comm] using h3
          have h2 : 1 ≤ pat.length := by
            cases pat with
            | nil => exact absurd rfl hp
            | cons p ps => simp
          simp at hfuel
          omega
        rw [getLastD_cons_ne _ _ _ (splitGo_ne_nil pat f [] r)]
        by_cases hcr : containsL pat r = true
        · obtain ⟨l2, hl2, hlast⟩ := ih [] r hrlen hcr
          simp only [List.reverse_nil, List.nil_append] at hl2
          refine ⟨acc.reverse ++ pat ++ l2, ?_, hlast⟩
          conv_lhs => rw [hr, hl2]
          simp [List.append_assoc]
        · have hb : containsL pat r = false := by
            cases hbb : containsL pat r
            · rfl
            · exact absurd hbb hcr
          rw [splitGo_no_occurrence pat f [] r hrlen hb]
          refine ⟨acc.reverse, ?_, ?_⟩
          · rw [hr]
            simp [List.append_assoc]
          · simpa using hb
      · have hccs : containsL pat cs = true := by
          rcases Bool.or_eq_true _ _ |>.mp (by simpa [containsL] using hc) with h1 | h1
          · exact absurd h1 hsw
          · exact h1
        rw [show splitGo pat (f + 1) acc (c :: cs) = splitGo pat f (c :: acc) cs from by
          simp [splitGo, hsw]]
        obtain ⟨l2, hl2, hlast⟩ := ih (c :: acc) cs (by simp at hfuel; omega) hccs
        refine ⟨l2, ?_, hlast⟩
        rw [← hl2]
        simp

/-- Claim C6: if the entry URL contains the abstract-path marker
`/abs/`, the derived id is everything after the marker — precisely, the
URL decomposes as `l ++ "/abs/" ++ t` where the extracted id `t`
contains no further occurrence of the marker (the split keeps the text
after the last scanned occurrence); if the URL does not contain the
marker, the id is absent. -/
theorem external_id_after_marker (url : String) :
    (containsS "/abs/" url = true →
      ∃ t : String, extract_arxiv_id url = some t ∧
        (∃ l : List Char, url.data = l ++ "/abs/".data ++ t.data) ∧
        containsS "/abs/" t = false) ∧
    (containsS "/abs/" url = false → extract_arxiv_id url = none) := by
  constructor
  · intro h
    obtain ⟨l, hl, hlast⟩ := splitGo_last "/abs/".data url.data.length [] url.data
      (by decide) (le_refl _) h
    simp only [List.reverse_nil, List.nil_append] at hl
    refine ⟨⟨(splitAll "/abs/".data url.data).getLastD []⟩, ?_, ⟨l, ?_⟩, ?_⟩
    · simp [extract_arxiv_id, h]
    · exact hl
    · exact hlast
  · intro h
    simp [extract_arxiv_id, h]

/-- Witness for C6 on a normal arXiv abstract URL. -/
theorem external_id_after_marker_witness :
    ∃ t : String, extract_arxiv_id "http://arxiv.org/abs/2401.1234" = some t ∧
      (∃ l : List Char,
        ("http://arxiv.org/abs/2401.1234" : String).data = l ++ "/abs/".data ++ t.data) ∧
      containsS "/abs/" t = false :=
  (external_id_after_marker "http://arxiv.org/abs/2401.1234").1 (by decide)

/-!
## Claim C10: empty-string externalId
-/

theorem splitGo_append_pat (pat : List Char) (hp : pat ≠ []) (fuel : Nat)
    (acc l : List Char) (hfuel : (l ++ pat).length ≤ fuel)
    (h : containsL pat (l ++ pat.dropLast) = false) :
    (splitGo pat fuel acc (l ++ pat)).getLastD [] = [] := by
  induction fuel generalizing acc l with
  | zero =>
    exfalso
    cases pat with
    | nil => exact absurd rfl hp
    | cons p ps => simp [List.length_append] at hfuel
  | succ f ih =>
    cases l with
    | nil =>
      simp only [List.nil_append]
      cases pat with
      | nil => exact absurd rfl hp
      | cons p ps =>
        have hsw : startsWithL (p :: ps) (p :: ps) = true :=
          (startsWithL_iff _ _).mpr ⟨[], by simp⟩
        rw [show splitGo (p :: ps) (f + 1) acc (p :: ps) =
            acc.reverse :: splitGo (p :: ps) f []
              (List.drop (p :: ps).length (p :: ps)) from by simp [splitGo, hsw]]
        rw [List.drop_length]
        rw [show splitGo (p :: ps) f [] ([] : List Char) = [[]] from by
          cases f <;> simp [splitGo]]
        rfl
    | cons c cs =>
      simp only [List.cons_append] at hfuel h ⊢
      have hsw : startsWithL pat (c :: (cs ++ pat)) = false := by
        cases hb : startsWithL pat (c :: (cs ++ pat))
        · rfl
        · exfalso
          rcases (startsWithL_iff _ _).mp hb with ⟨r, hreq⟩
          have hrne : r ≠ [] := by
            intro h0
            subst h0
            have hlen := congrArg List.length hreq
            simp [List.length_append] at hlen
            cases pat with
            | nil => exact absurd rfl hp
            | cons p ps => simp at hlen; omega
          have hdl : (c :: (cs ++ pat)).dropLast = pat ++ r.dropLast := by
            rw [hreq]
            exact List.dropLast_append_of_ne_nil _ hrne
          have hdl2 : (c :: (cs ++ pat)).dropLast = (c :: cs) ++ pat.dropLast := by
            rw [show c :: (cs ++ pat) = (c :: cs) ++ pat from rfl]
            exact List.dropLast_append_of_ne_nil _ hp
          have heq : (c :: cs) ++ pat.dropLast = pat ++ r.dropLast := by
            rw [← hdl2, hdl]
          have hstart : startsWithL pat (c :: (cs ++ pat.dropLast)) = true := by
            rw [show c :: (cs ++ pat.dropLast) = (c :: cs) ++ pat.dropLast from rfl, heq]
            exact (startsWithL_iff _ _).mpr ⟨r.dropLast, rfl⟩
          have hcont : containsL pat (c :: (cs ++ pat.dropLast)) = true := by
            simp only [containsL, Bool.or_eq_true]
            exact Or.inl hstart
          rw [hcont] at h
          exact Bool.noConfusion h
      rw [show splitGo pat (f + 1) acc (c :: (cs ++ pat)) =
          splitGo pat f (c :: acc) (cs ++ pat) from by simp [splitGo, hsw]]
      refine ih (c :: acc) cs ?_ ?_
      · simp [List.length_append] at hfuel ⊢
        omega
      · cases hb : containsL pat (cs ++ pat.dropLast)
        · rfl
        · exfalso
          have h2 : containsL pat (c :: (cs ++ pat.dropLast)) = true := by
            simp [containsL, hb]
          rw [h2] at h
          exact Bool.noConfusion h

/-- Counterexample to C10 as stated: the URL `http://x/abs/abs/` ends
exactly with the marker `/abs/`, yet the left-to-right split consumes
the earlier overlapping occurrence first, so the derived id is
`"abs/"`, not the empty string. -/
theorem empty_id_counterexample :
    ("http://x/abs" ++ "/abs/" : String) = "http://x/abs/abs/" ∧
    extract_arxiv_id "http://x/abs/abs/" = some "abs/" ∧
    some "abs/" ≠ (some "" : Option String) :=
  ⟨by decide, by decide, by decide⟩

/-- Amended C10: when the URL is `l ++ "/abs/"` and the marker does not
occur inside `l ++ "/abs"` (in particular, no overlapping earlier
occurrence), the derived id is the empty string; and every consumer
treats an empty-string id exactly like an absent one: the dedup step
appends the record without consulting or extending the seen set, merged
output retains all such records, and the rendered paper block is
identical to that of the same record with no id at all (no identifier
badge). -/
theorem empty_id_treated_absent :
    (∀ l : List Char, containsL "/abs/".data (l ++ "/abs".data) = false →
      extract_arxiv_id ⟨l ++ "/abs/".data⟩ = some "") ∧
    (∀ (st : List Paper × List String) (p : Paper), p.arxiv_id = some "" →
      dedupStep st p = (st.1 ++ [p], st.2)) ∧
    (∀ ll : List (List Paper),
      (mergeDedup ll).filter (fun p => p.arxiv_id == some "") =
        ll.flatten.filter (fun p => p.arxiv_id == some "")) ∧
    (∀ (idx : Nat) (p : Paper), p.arxiv_id = some "" →
      renderPaper idx p = renderPaper idx { p with arxiv_id := none }) := by
  refine ⟨?_, ?_, ?_, ?_⟩
  · intro l h
    have hc : containsL "/abs/".data (l ++ "/abs/".data) = true := by
      refine containsL_append_right _ _ _ (containsL_self _)
    have hlast : (splitGo "/abs/".data (l ++ "/abs/".data).length []
        (l ++ "/abs/".data)).getLastD [] = [] := by
      refine splitGo_append_pat "/abs/".data (by decide) _ [] l (le_refl _) ?_
      exact h
    simp only [extract_arxiv_id, containsS, strData_mk, hc, if_pos, splitAll]
    rw [hlast]
  · intro st p h
    simp [dedupStep, h]
  · intro ll
    rw [mergeDedup_eq]
    refine dedupGo_filter _ _ _ ?_
    intro p hp
    cases hpi : p.arxiv_id with
    | none =>
      rw [hpi] at hp
      exact absurd hp (by simp [truthy])
    | some t =>
      rw [hpi] at hp
      have ht : ¬ t = "" := by
        simp [truthy] at hp
        exact hp
      simp only [beq_eq_false_iff_ne, ne_eq, Option.some.injEq]
      exact ht
  · intro idx p h
    simp [renderPaper, rpBadge, truthy, h]

/-- Witness for the amended C10: a URL whose only marker occurrence is
the final one yields the empty id. -/
theorem empty_id_treated_absent_witness :
    extract_arxiv_id ⟨"http://x".data ++ "/abs/".data⟩ = some "" :=
  empty_id_treated_absent.1 "http://x".data (by decide)
